import Mathlib

/-!
Shallow embedding of the deposit-interest calculator
(`src/lib/interest-calculator.ts`, plus the duplicated tier-split logic in
the `DailyBreakdownTable` component).

Modelling conventions, used consistently below:

* `Decimal` values are modelled as exact rationals (`ℚ`).  The source
  configures decimal.js with 50 significant digits; every operation the
  claims exercise (add, subtract, multiply, divide by the small constants
  100 and 365, min, comparisons) is exact at that precision for the inputs
  considered, so the rational model coincides with the code on them.
* `Decimal.pow` computes a real (possibly irrational) power, which has no
  computable exact model; the engine is therefore parametrised by a power
  oracle `dpow : ℚ → ℚ → ℚ`.  Theorems that depend on a value of
  `Decimal.pow` state the defining property they need as a hypothesis
  (e.g. that a power with exponent 1 returns its base, which decimal.js
  guarantees exactly).  `qpow` below gives the exact value of
  `Decimal.pow` on integer exponents and is used to instantiate the
  oracle at concrete inputs.
* String-typed tier fields (`min`, `max`, `rate`) are modelled by `FieldVal`:
  the empty string (`FieldVal.missing`, the only falsy string), a numeric
  string carrying its value (`FieldVal.num q`), or a non-empty non-numeric
  string (`FieldVal.junk`).  `new Decimal(s)` throws on the empty string and
  on non-numeric strings; exceptions are modelled with `Except Unit`.
* A JavaScript `Date` holds a timestamp; all dates the program builds are
  midnights, so a `Date` is modelled as a calendar day (year / 0-based
  month / 1-based day-of-month, as returned by `getFullYear`, `getMonth`,
  `getDate`).  The host timezone is taken to be UTC, so string-parsed
  dates and component-constructed dates live on the same midnight grid and
  `toISOString().split(the T)[0]` is the identity on the calendar day.
  Date comparisons compare timestamps, i.e. the linear day number
  `dayNumber` below; `setDate(getDate() + 1)` advances the day number by
  one; `getMonth()` is always in `0..11`, hence the `Fin 12` month field.
  The component constructor `new Date(y, m, d)` additionally maps year
  arguments 0 to 99 to `1900 + y` (ECMAScript `MakeFullYear`), modelled
  by `makeFullYear` at the two sites where the program feeds a
  `getFullYear()` result back into that constructor; ISO-string parsing
  (`new Date(the string)`) keeps the written year as is.
-/

/-- Source `isLeapYear` (interest-calculator.ts line 57). -/
def isLeapYear (year : Nat) : Bool :=
  (year % 4 == 0 && year % 100 != 0) || (year % 400 == 0)

/-- Source `getDaysInYear` (interest-calculator.ts line 62). -/
def getDaysInYear (year : Nat) : Nat :=
  if isLeapYear year then 366 else 365

/-- Number of days of the 0-based month `m` of year `y`, as realised by the
JavaScript `new Date(y, m + 1, 0).getDate()` idiom the source relies on. -/
def daysInMonth (y m : Nat) : Nat :=
  match m with
  | 1 => if isLeapYear y then 29 else 28
  | 3 => 30
  | 5 => 30
  | 8 => 30
  | 10 => 30
  | _ => 31

/-- Days of year `y` that precede its 0-based month `m` (cumulative table;
only `m ≤ 12` is ever reached since months are `Fin 12`). -/
def daysBeforeMonth (y m : Nat) : Nat :=
  let feb := if isLeapYear y then 29 else 28
  match m with
  | 0 => 0
  | 1 => 31
  | 2 => 31 + feb
  | 3 => 62 + feb
  | 4 => 92 + feb
  | 5 => 123 + feb
  | 6 => 153 + feb
  | 7 => 184 + feb
  | 8 => 215 + feb
  | 9 => 245 + feb
  | 10 => 276 + feb
  | 11 => 306 + feb
  | _ => 337 + feb

/-- Days that precede year `y` (counting from year 0). -/
def daysBeforeYear : Nat → Nat
  | 0 => 0
  | y + 1 => daysBeforeYear y + getDaysInYear y

/-- A JavaScript `Date` at midnight UTC: `getFullYear` / `getMonth`
(0-based, always in `0..11`) / `getDate` (1-based). -/
structure Date where
  year : Nat
  month : Fin 12
  day : Nat
deriving DecidableEq

/-- Linear day number of a date.  JavaScript compares `Date`s by their
timestamps, which for midnight dates is an affine image of this number, so
every date comparison in the source is modelled by comparing `dayNumber`s. -/
def dayNumber (d : Date) : Nat :=
  daysBeforeYear d.year + daysBeforeMonth d.year d.month.val + d.day

/-- The loop of source `calculateDays` (interest-calculator.ts lines
71-77): starting at day number `cur`, count one day per iteration while
`cur ≤ last`, stepping `setDate(getDate() + 1)`, i.e. `cur + 1`.  The
first argument is the remaining iteration bound; the loop terminates
because each iteration advances the day, and `countDays` below passes the
loop's exact iteration count, so the bound is never hit early
(`countDaysGo_eq`). -/
def countDaysGo : Nat → Nat → Nat → Nat
  | 0, _, _ => 0
  | fuel + 1, cur, last => if cur ≤ last then countDaysGo fuel (cur + 1) last + 1 else 0

def countDays (cur last : Nat) : Nat :=
  countDaysGo (last + 1 - cur) cur last

/-- Source `calculateDays` (interest-calculator.ts line 67): inclusive day
count between two dates via the counting loop. -/
def calculateDays (startDate endDate : Date) : Nat :=
  countDays (dayNumber startDate) (dayNumber endDate)

/-- A string-valued field of an `InterestTier`: empty, numeric with value
`q`, or non-empty non-numeric. -/
inductive FieldVal where
  | missing : FieldVal
  | junk : FieldVal
  | num : ℚ → FieldVal
deriving DecidableEq

/-- Model of `new Decimal(s)`: yields the value of a numeric string and
throws (models the `DecimalError`) on the empty string or a junk string. -/
def decOf : FieldVal → Except Unit ℚ
  | FieldVal.num q => Except.ok q
  | _ => Except.error ()

/-- Model of `tier.max ? new Decimal(tier.max) : null`: the empty string is
the only falsy string, any other non-numeric string throws. -/
def maxOf : FieldVal → Except Unit (Option ℚ)
  | FieldVal.missing => Except.ok none
  | FieldVal.junk => Except.error ()
  | FieldVal.num q => Except.ok (some q)

/-- Source `InterestTier`: three string fields. -/
structure InterestTier where
  min : FieldVal
  max : FieldVal
  rate : FieldVal
deriving DecidableEq

/-- Source `TierResult`: the original string fields plus the allocated
amount and its interest (both produced as numeric strings). -/
structure TierResult where
  min : FieldVal
  max : FieldVal
  rate : FieldVal
  amount : ℚ
  interest : ℚ
deriving DecidableEq

/-- Sort key of the tier sorts: `parseFloat(a.min)` in
interest-calculator.ts and `parseFloat(a.min || the string 0)` in the
DailyBreakdownTable copy.  A numeric `min` yields its value; the empty
string yields 0 in the second form and `NaN` in the first, and junk yields
`NaN` in both.  A `NaN` comparator result leaves the pair's order
unchanged in V8, which the key value 0 reproduces pairwise; every theorem
below either assumes numeric `min` fields or sorts a single-element list,
so the `NaN` cases are never relied upon. -/
def minKey (t : InterestTier) : ℚ :=
  match t.min with
  | FieldVal.num q => q
  | _ => 0

/-- Stable insertion of `x` into a list ordered by ascending `key`:
`x` goes before the first strictly-greater element and after equal ones,
matching the stable ascending sort of `Array.prototype.sort`. -/
def insertK {α : Type} (key : α → ℚ) (x : α) : List α → List α
  | [] => [x]
  | y :: ys => if key x ≤ key y then x :: y :: ys else y :: insertK key x ys

/-- Stable ascending sort by `key`, the model of
`[...tiers].sort((a, b) => key a - key b)`. -/
def sortByKey {α : Type} (key : α → ℚ) : List α → List α
  | [] => []
  | x :: xs => insertK key x (sortByKey key xs)

/-- Loop of source `splitAmountByTiers` (interest-calculator.ts lines
93-127), walking the sorted tiers with the running `processedAmount`.
Both `new Decimal` constructions happen before the break test, exactly as
in the source; `break` drops every remaining tier. -/
def splitLoop (total : ℚ) : List InterestTier → ℚ → Except Unit (List TierResult)
  | [], _ => Except.ok []
  | t :: ts, processed =>
    match decOf t.min with
    | Except.error e => Except.error e
    | Except.ok tierMin =>
      match maxOf t.max with
      | Except.error e => Except.error e
      | Except.ok tierMax =>
        if total ≤ processed then Except.ok []
        else if total < tierMin then splitLoop total ts processed
        else
          let tierAmount : ℚ :=
            match tierMax with
            | some hi => min (hi - processed) (total - processed)
            | none => if tierMin ≤ total then total - processed else 0
          if 0 < tierAmount then
            match splitLoop total ts (processed + tierAmount) with
            | Except.error e => Except.error e
            | Except.ok rest =>
              Except.ok ({ min := t.min, max := t.max, rate := t.rate,
                           amount := tierAmount, interest := 0 } :: rest)
          else splitLoop total ts processed

/-- Source `splitAmountByTiers` (interest-calculator.ts line 83): sort by
`parseFloat(min)`, then walk with `processedAmount = 0`.  The `amount`
argument is the numeric value of the amount string the callers pass
(always a produced decimal string). -/
def splitAmountByTiers (amount : ℚ) (tiers : List InterestTier) : Except Unit (List TierResult) :=
  splitLoop amount (sortByKey minKey tiers) 0

/-- ECMAScript `MakeFullYear`: the `Date(year, month, day)` component
constructor maps year arguments 0 to 99 to `1900 + year` and leaves other
years unchanged.  This applies only where the program feeds a year number
back into the component constructor — the engine's month-loop seed
`new Date(start.getFullYear(), start.getMonth(), 1)` and the
monthly-cadence `nextMonthStart` — not to string-parsed dates. -/
def makeFullYear (y : Nat) : Nat :=
  if y ≤ 99 then 1900 + y else y

/-- The `getFullYear` / `getMonth` pair of an already-constructed `Date`
object (so its year is whatever the constructor produced; `MakeFullYear`
is applied by the constructor call sites, via `makeFullYear`, not
here). -/
structure CalMonth where
  year : Nat
  month : Fin 12
deriving DecidableEq

/-- First day of the month of an already-constructed date (used for the
loop guard `tempDate <= end`, which compares the seeded `tempDate`
itself).  The raw constructor `new Date(y, m, 1)` is modelled as
`CalMonth.firstDay { year := makeFullYear y, month := m }` at its call
sites. -/
def CalMonth.firstDay (mo : CalMonth) : Date :=
  { year := mo.year, month := mo.month, day := 1 }

/-- Last day of a month: `new Date(y, m + 1, 0)` (JavaScript normalises
day 0 of the next month to the last day of this one).  The year argument
here is always `tempDate.getFullYear()` of the already-normalised loop
date, which is at least 100 (the seed applies `makeFullYear`, and
`setMonth` never decreases the year), so `MakeFullYear` is the identity
on it and is not re-applied. -/
def CalMonth.lastDay (mo : CalMonth) : Date :=
  { year := mo.year, month := mo.month, day := daysInMonth mo.year mo.month.val }

/-- The following month: `setMonth(getMonth() + 1)` and
`new Date(y, m + 1, 1)`, with JavaScript's normalisation of month 12 to
January of the next year. -/
def CalMonth.next (mo : CalMonth) : CalMonth :=
  if h : mo.month.val < 11 then
    { year := mo.year, month := ⟨mo.month.val + 1, by omega⟩ }
  else
    { year := mo.year + 1, month := ⟨0, by omega⟩ }

/-- One month segment of the engine's `monthlyData` array
(interest-calculator.ts lines 171-186): the month (standing for
`displayMonth`), `monthStart` (always the 1st of the month) and
`monthEnd` (the `actualEnd`, clipped at the range end). -/
structure Segment where
  month : CalMonth
  monthStart : Date
  monthEnd : Date
deriving DecidableEq

/-- The engine's month-generation loop (interest-calculator.ts lines
172-186): starting from the 1st of the month, push a segment while
`tempDate <= end`, clipping the month end at `end`.  The fuel argument is
a remaining-iteration bound; the loop terminates because each iteration
advances `tempDate` by a whole month, and `genMonths` passes a bound the
loop never exhausts (`genMonthsGo_congr` / `genMonths_unfold`).  The
`mo` argument models the already-constructed `tempDate`: the engine seeds
it with `makeFullYear start.year` (the component constructor's
normalisation), and `CalMonth.next` (`setMonth`) never lowers the year,
so every month reaching this loop has year at least 100. -/
def genMonthsGo (ed : Date) : Nat → CalMonth → List Segment
  | 0, _ => []
  | fuel + 1, mo =>
    if dayNumber mo.firstDay ≤ dayNumber ed then
      let monthEnd := mo.lastDay
      let actualEnd := if dayNumber ed < dayNumber monthEnd then ed else monthEnd
      { month := mo, monthStart := mo.firstDay, monthEnd := actualEnd } ::
        genMonthsGo ed fuel mo.next
    else []

def genMonths (ed : Date) (mo : CalMonth) : List Segment :=
  genMonthsGo ed (dayNumber ed + 1 - dayNumber mo.firstDay) mo

/-- Exact value of `Decimal.pow` on integer exponents (for such exponents
decimal.js computes the power exactly at the configured precision); used
to instantiate the power oracle at concrete inputs.  Non-integer
exponents, where `Decimal.pow` returns a 50-digit approximation of an
irrational number, are outside this model and mapped to 0; no theorem
relies on the oracle's value there. -/
def qpow (b e : ℚ) : ℚ :=
  if e.den = 1 then b ^ e.num else 0

/-- Source `calculateSimpleInterest` (interest-calculator.ts line 133):
`P * (rate / 100) * (days / 365)`, throwing if the rate string does not
parse. -/
def calculateSimpleInterest (P : ℚ) (rate : FieldVal) (days : Nat) : Except Unit ℚ :=
  match decOf rate with
  | Except.error e => Except.error e
  | Except.ok r => Except.ok (P * (r / 100) * ((days : ℚ) / 365))

/-- Source `calculateCompoundInterest` (interest-calculator.ts line 142):
`P * (1 + rate / 100) ^ (days / 365) - P`, via the power oracle `dpow`. -/
def calculateCompoundInterest (dpow : ℚ → ℚ → ℚ) (P : ℚ) (rate : FieldVal)
    (days : Nat) : Except Unit ℚ :=
  match decOf rate with
  | Except.error e => Except.error e
  | Except.ok r => Except.ok (P * dpow (1 + r / 100) ((days : ℚ) / 365) - P)

/-- The engine's two interest types. -/
inductive InterestType where
  | simple : InterestType
  | compound : InterestType
deriving DecidableEq

/-- The engine's four application cadences. -/
inductive ApplyType where
  | daily : ApplyType
  | monthly : ApplyType
  | biannually : ApplyType
  | annually : ApplyType
deriving DecidableEq

/-- Interest of one tier allocation for the chosen type
(interest-calculator.ts lines 204-208 and 260-264). -/
def interestOf (dpow : ℚ → ℚ → ℚ) (it : InterestType) (P : ℚ) (rate : FieldVal)
    (days : Nat) : Except Unit ℚ :=
  match it with
  | InterestType.simple => calculateSimpleInterest P rate days
  | InterestType.compound => calculateCompoundInterest dpow P rate days

/-- The engine's per-month accumulation of tier interests into
`monthInterest` (interest-calculator.ts lines 199-210). -/
def sumTierInterest (dpow : ℚ → ℚ → ℚ) (it : InterestType) (days : Nat) :
    List TierResult → ℚ → Except Unit ℚ
  | [], acc => Except.ok acc
  | td :: tds, acc =>
    match interestOf dpow it td.amount td.rate days with
    | Except.error e => Except.error e
    | Except.ok i => sumTierInterest dpow it days tds (acc + i)

/-- Source `MonthlyBreakdown`: one ledger row; `month` stands for the
locale `displayMonth` label. -/
structure MonthlyBreakdown where
  month : CalMonth
  days : Nat
  balance : ℚ
  interest : ℚ
  cumulative : ℚ
  accrued : ℚ
  applied : Bool
deriving DecidableEq

/-- Source `CalculationResult`. -/
structure CalculationResult where
  totalInterest : ℚ
  finalAmount : ℚ
  accruedInterest : ℚ
  breakdown : List MonthlyBreakdown
  tierResults : List TierResult
  totalDays : Nat
deriving DecidableEq

/-- The engine's mutable accumulators (`currentBalance`,
`cumulativeInterest`, `accruedInterest`, `breakdown`). -/
structure EState where
  balance : ℚ
  cumulative : ℚ
  accrued : ℚ
  breakdown : List MonthlyBreakdown
deriving DecidableEq

/-- The capitalization decision of interest-calculator.ts lines 213-224,
computed from the segment's `monthEnd` (the clipped `actualEnd`):
`daily` always applies; `monthly` applies iff
`new Date(monthEnd.getFullYear(), monthEnd.getMonth() + 1, 1)` — a fresh
component-constructor call, hence subject to `makeFullYear` — is still
within the range; `biannually` iff `monthEnd`'s month is June or
December; `annually` iff it is December. -/
def shouldApplyOf (ap : ApplyType) (ed : Date) (g : Segment) : Bool :=
  match ap with
  | ApplyType.daily => true
  | ApplyType.monthly =>
    decide (dayNumber (CalMonth.firstDay
      (CalMonth.next { year := makeFullYear g.monthEnd.year,
                       month := g.monthEnd.month })) ≤ dayNumber ed)
  | ApplyType.biannually => g.monthEnd.month.val == 5 || g.monthEnd.month.val == 11
  | ApplyType.annually => g.monthEnd.month.val == 11

/-- One iteration of the engine's month loop (interest-calculator.ts
lines 189-254): day count of the segment, tier split of the running
balance, per-tier interest summed into `monthInterest`, then the
capitalization branch pushing one ledger row. -/
def stepMonth (dpow : ℚ → ℚ → ℚ) (it : InterestType) (ap : ApplyType)
    (tiers : List InterestTier) (ed : Date) (s : EState) (g : Segment) :
    Except Unit EState :=
  let days := calculateDays g.monthStart g.monthEnd
  match splitAmountByTiers s.balance tiers with
  | Except.error e => Except.error e
  | Except.ok tierSplit =>
    match sumTierInterest dpow it days tierSplit 0 with
    | Except.error e => Except.error e
    | Except.ok monthInterest =>
      if shouldApplyOf ap ed g then
        let tot := s.accrued + monthInterest
        Except.ok
          { balance := s.balance + tot, cumulative := s.cumulative + tot, accrued := 0,
            breakdown := s.breakdown ++
              [{ month := g.month, days := days, balance := s.balance + tot,
                 interest := monthInterest, cumulative := s.cumulative + tot,
                 accrued := 0, applied := true }] }
      else
        Except.ok
          { balance := s.balance, cumulative := s.cumulative,
            accrued := s.accrued + monthInterest,
            breakdown := s.breakdown ++
              [{ month := g.month, days := days, balance := s.balance,
                 interest := monthInterest,
                 cumulative := s.cumulative + (s.accrued + monthInterest),
                 accrued := s.accrued + monthInterest, applied := false }] }

/-- The engine's `for (const monthInfo of monthlyData)` loop, threading
the accumulator state through `stepMonth`. -/
def runMonths (dpow : ℚ → ℚ → ℚ) (it : InterestType) (ap : ApplyType)
    (tiers : List InterestTier) (ed : Date) :
    EState → List Segment → Except Unit EState
  | s, [] => Except.ok s
  | s, g :: gs =>
    match stepMonth dpow it ap tiers ed s g with
    | Except.error e => Except.error e
    | Except.ok s1 => runMonths dpow it ap tiers ed s1 gs

/-- The engine's final `tierResults` mapping (interest-calculator.ts
lines 258-270): each allocation of the original principal gets its
interest over the whole period. -/
def mkTierResults (dpow : ℚ → ℚ → ℚ) (it : InterestType) (totalDays : Nat) :
    List TierResult → Except Unit (List TierResult)
  | [] => Except.ok []
  | td :: tds =>
    match interestOf dpow it td.amount td.rate totalDays with
    | Except.error e => Except.error e
    | Except.ok i =>
      match mkTierResults dpow it totalDays tds with
      | Except.error e => Except.error e
      | Except.ok rest => Except.ok ({ td with interest := i } :: rest)

/-- Source `calculateInterest` (interest-calculator.ts line 152): total
day count, month segments seeded with
`new Date(start.getFullYear(), start.getMonth(), 1)` — whose year
argument goes through `MakeFullYear`, so start years 0 to 99 relocate the
loop to the 1900s and produce an empty breakdown — the month loop, the
final tier split of the original principal, and the aggregate result. -/
def calculateInterest (dpow : ℚ → ℚ → ℚ) (depositAmount : ℚ)
    (startDate endDate : Date) (tiers : List InterestTier)
    (it : InterestType) (ap : ApplyType) : Except Unit CalculationResult :=
  let totalDays := calculateDays startDate endDate
  let segs := genMonths endDate
    { year := makeFullYear startDate.year, month := startDate.month }
  match runMonths dpow it ap tiers endDate
      { balance := depositAmount, cumulative := 0, accrued := 0, breakdown := [] } segs with
  | Except.error e => Except.error e
  | Except.ok st =>
    match splitAmountByTiers depositAmount tiers with
    | Except.error e => Except.error e
    | Except.ok tierSplit =>
      match mkTierResults dpow it totalDays tierSplit with
      | Except.error e => Except.error e
      | Except.ok tierResults =>
        Except.ok
          { totalInterest := st.cumulative + st.accrued,
            finalAmount := st.balance + st.accrued,
            accruedInterest := st.accrued,
            breakdown := st.breakdown,
            tierResults := tierResults,
            totalDays := totalDays }

/-- Whether an `Except` carries a success value. -/
def isOkE {α : Type} : Except Unit α → Bool
  | Except.ok _ => true
  | Except.error _ => false

/-- Decidable equality of fallible results, for evaluating concrete runs. -/
instance {α : Type} [DecidableEq α] : DecidableEq (Except Unit α) := fun a b =>
  match a, b with
  | Except.ok x, Except.ok y =>
    if h : x = y then isTrue (by rw [h]) else isFalse (by intro hc; cases hc; exact h rfl)
  | Except.error _, Except.error _ => isTrue (by rfl)
  | Except.ok _, Except.error _ => isFalse (by intro hc; cases hc)
  | Except.error _, Except.ok _ => isFalse (by intro hc; cases hc)

namespace DailyBreakdown

/-- Allocation record of the DailyBreakdownTable's duplicated
`splitAmountByTiers` (DailyBreakdownTable.tsx lines 45-94): like the
engine's, but with no `interest` field. -/
structure Alloc where
  min : FieldVal
  max : FieldVal
  rate : FieldVal
  amount : ℚ
deriving DecidableEq

/-- Loop of the DailyBreakdownTable's `splitAmountByTiers`: identical to
the engine's except that a tier whose `min` or `rate` is falsy (the empty
string) is skipped before any `Decimal` construction
(`if (!tier.min || !tier.rate) continue`). -/
def splitLoop (total : ℚ) : List InterestTier → ℚ → Except Unit (List Alloc)
  | [], _ => Except.ok []
  | t :: ts, processed =>
    if t.min = FieldVal.missing ∨ t.rate = FieldVal.missing then
      splitLoop total ts processed
    else
      match decOf t.min with
      | Except.error e => Except.error e
      | Except.ok tierMin =>
        match maxOf t.max with
        | Except.error e => Except.error e
        | Except.ok tierMax =>
          if total ≤ processed then Except.ok []
          else if total < tierMin then splitLoop total ts processed
          else
            let tierAmount : ℚ :=
              match tierMax with
              | some hi => min (hi - processed) (total - processed)
              | none => if tierMin ≤ total then total - processed else 0
            if 0 < tierAmount then
              match splitLoop total ts (processed + tierAmount) with
              | Except.error e => Except.error e
              | Except.ok rest =>
                Except.ok ({ min := t.min, max := t.max, rate := t.rate,
                             amount := tierAmount } :: rest)
            else splitLoop total ts processed

/-- The DailyBreakdownTable's `splitAmountByTiers`: sort by
`parseFloat(min || the string 0)`, then walk with `processedAmount = 0`
(the `amount` argument models an amount string already past the
component's numeric validation). -/
def splitAmountByTiers (amount : ℚ) (tiers : List InterestTier) : Except Unit (List Alloc) :=
  splitLoop amount (sortByKey minKey tiers) 0

end DailyBreakdown

/-- A tier none of whose fields is a non-empty non-numeric string. -/
def noJunk (t : InterestTier) : Bool :=
  decide (t.min ≠ FieldVal.junk) && decide (t.max ≠ FieldVal.junk) &&
    decide (t.rate ≠ FieldVal.junk)

/-- The DailyBreakdownTable skip guard: `min` and `rate` both truthy. -/
def hasMinRate (t : InterestTier) : Bool :=
  decide (t.min ≠ FieldVal.missing) && decide (t.rate ≠ FieldVal.missing)

/-- A tier whose `min` parses and whose `max` is absent or parses, so the
engine splitter's two `Decimal` constructions cannot throw on it. -/
def minMaxParse (t : InterestTier) : Bool :=
  match t.min, t.max with
  | FieldVal.num _, FieldVal.missing => true
  | FieldVal.num _, FieldVal.num _ => true
  | _, _ => false

/-- A tier chain covering all amounts from `lo` upward: each tier starts
exactly at `lo` (inclusive bound), bounded tiers hand over at their upper
bound, and the last tier is open-ended.  This is the shape of a sorted
non-empty tier set with disjoint, contiguous bands covering everything
from `lo` up. -/
def chainCover (lo : ℚ) : List InterestTier → Bool
  | [] => false
  | [t] => decide (t.min = FieldVal.num lo) && decide (t.max = FieldVal.missing)
  | t :: t2 :: ts =>
    match t.max with
    | FieldVal.num hi =>
      decide (t.min = FieldVal.num lo) && decide (lo ≤ hi) &&
        chainCover hi (t2 :: ts)
    | _ => false

/-- A concrete well-formed open-ended tier (5 percent from 0 up), used to
instantiate universally quantified theorems at concrete inputs. -/
def tierA : InterestTier :=
  { min := FieldVal.num 0, max := FieldVal.missing, rate := FieldVal.num 5 }

/-- A concrete tier with missing `min` and `max`, exercising the malformed
paths. -/
def tierBad : InterestTier :=
  { min := FieldVal.missing, max := FieldVal.missing, rate := FieldVal.num 1 }

/-- A concrete bounded tier (1 percent on 0 to 50), first band of a
covering chain. -/
def tierLow : InterestTier :=
  { min := FieldVal.num 0, max := FieldVal.num 50, rate := FieldVal.num 1 }

/-- A concrete open-ended tier (2 percent from 50 up), last band of a
covering chain. -/
def tierHigh : InterestTier :=
  { min := FieldVal.num 50, max := FieldVal.missing, rate := FieldVal.num 2 }


/-! Supporting lemmas about the date model and the month loop. -/

theorem countDaysGo_eq : ∀ fuel cur last, last + 1 - cur ≤ fuel →
    countDaysGo fuel cur last = last + 1 - cur := by
  intro fuel
  induction fuel with
  | zero => intro cur last h; simp only [countDaysGo]; omega
  | succ k ih =>
    intro cur last h
    simp only [countDaysGo]
    split
    · rw [ih (cur + 1) last (by omega)]; omega
    · omega

theorem countDays_eq (cur last : Nat) : countDays cur last = last + 1 - cur :=
  countDaysGo_eq _ cur last (Nat.le_refl _)

theorem daysInMonth_pos (y m : Nat) : 0 < daysInMonth y m := by
  unfold daysInMonth
  split
  · split <;> omega
  all_goals omega

theorem daysBeforeMonth_succ (y m : Nat) (h : m < 12) :
    daysBeforeMonth y (m + 1) = daysBeforeMonth y m + daysInMonth y m := by
  interval_cases m <;>
    simp [daysBeforeMonth, daysInMonth] <;>
    cases hL : isLeapYear y <;> simp [hL]

theorem dayNumber_firstDay_next (mo : CalMonth) :
    dayNumber (CalMonth.firstDay (CalMonth.next mo)) =
      dayNumber (CalMonth.firstDay mo) + daysInMonth mo.year mo.month.val := by
  unfold CalMonth.next
  split
  · simp only [dayNumber, CalMonth.firstDay]
    rw [daysBeforeMonth_succ _ _ (by omega)]
    omega
  · have h11 : mo.month.val = 11 := by have := mo.month.isLt; omega
    simp only [dayNumber, CalMonth.firstDay, h11]
    show daysBeforeYear (mo.year + 1) + daysBeforeMonth (mo.year + 1) 0 + 1 = _
    have hsum : getDaysInYear mo.year =
        daysBeforeMonth mo.year 11 + daysInMonth mo.year 11 := by
      cases hL : isLeapYear mo.year <;>
        simp [getDaysInYear, daysBeforeMonth, daysInMonth, hL]
    have h0 : daysBeforeMonth (mo.year + 1) 0 = 0 := rfl
    simp only [daysBeforeYear, h0]
    omega

theorem dayNumber_lastDay (mo : CalMonth) :
    dayNumber (CalMonth.lastDay mo) + 1 =
      dayNumber (CalMonth.firstDay mo) + daysInMonth mo.year mo.month.val := by
  simp only [dayNumber, CalMonth.lastDay, CalMonth.firstDay]
  omega

theorem makeFullYear_ge_100 (y : Nat) : 100 ≤ makeFullYear y := by
  unfold makeFullYear
  split <;> omega

theorem makeFullYear_of_ge {y : Nat} (h : 100 ≤ y) : makeFullYear y = y := by
  unfold makeFullYear
  rw [if_neg (by omega)]

theorem CalMonth.next_year_ge (mo : CalMonth) :
    mo.year ≤ (CalMonth.next mo).year := by
  unfold CalMonth.next
  split
  · exact Nat.le_refl _
  · exact Nat.le_succ _

theorem daysBeforeYear_mono : ∀ a b : Nat, a ≤ b →
    daysBeforeYear a ≤ daysBeforeYear b := by
  intro a b hab
  induction b with
  | zero =>
    have ha : a = 0 := Nat.le_zero.mp hab
    rw [ha]
  | succ k ih =>
    rcases Nat.lt_or_ge a (k + 1) with h | h
    · have h1 := ih (Nat.lt_succ_iff.mp h)
      have h2 : daysBeforeYear (k + 1) =
          daysBeforeYear k + getDaysInYear k := rfl
      omega
    · have ha : a = k + 1 := Nat.le_antisymm hab h
      rw [ha]

theorem daysBeforeMonth_daysInMonth_le (y m : Nat) (hm : m ≤ 11) :
    daysBeforeMonth y m + daysInMonth y m ≤ getDaysInYear y := by
  interval_cases m <;> cases hL : isLeapYear y <;>
    simp [daysBeforeMonth, daysInMonth, getDaysInYear, hL]

theorem dayNumber_le_daysBeforeYear_succ {d : Date}
    (hd : d.day ≤ daysInMonth d.year d.month.val) :
    dayNumber d ≤ daysBeforeYear (d.year + 1) := by
  have h1 := daysBeforeMonth_daysInMonth_le d.year d.month.val
    (by have := d.month.isLt; omega)
  have h2 : daysBeforeYear (d.year + 1) =
      daysBeforeYear d.year + getDaysInYear d.year := rfl
  simp only [dayNumber]
  omega

theorem genMonthsGo_congr (ed : Date) : ∀ f g mo,
    dayNumber ed + 1 - dayNumber mo.firstDay ≤ f →
    dayNumber ed + 1 - dayNumber mo.firstDay ≤ g →
    genMonthsGo ed f mo = genMonthsGo ed g mo := by
  intro f
  induction f with
  | zero =>
    intro g mo hf hg
    cases g with
    | zero => rfl
    | succ k =>
      simp only [genMonthsGo]
      rw [if_neg (by omega)]
  | succ k ih =>
    intro g mo hf hg
    cases g with
    | zero =>
      simp only [genMonthsGo]
      rw [if_neg (by omega)]
    | succ l =>
      simp only [genMonthsGo]
      by_cases hguard : dayNumber mo.firstDay ≤ dayNumber ed
      · rw [if_pos hguard, if_pos hguard]
        have hnext := dayNumber_firstDay_next mo
        have hpos := daysInMonth_pos mo.year mo.month.val
        rw [ih l mo.next (by omega) (by omega)]
      · rw [if_neg hguard, if_neg hguard]

/-- The recursion equation of the month-generation loop. -/
theorem genMonths_unfold (ed : Date) (mo : CalMonth) :
    genMonths ed mo =
      if dayNumber mo.firstDay ≤ dayNumber ed then
        { month := mo, monthStart := mo.firstDay,
          monthEnd := if dayNumber ed < dayNumber mo.lastDay then ed else mo.lastDay } ::
          genMonths ed mo.next
      else [] := by
  unfold genMonths
  by_cases hguard : dayNumber mo.firstDay ≤ dayNumber ed
  · rw [if_pos hguard]
    have h1 : dayNumber ed + 1 - dayNumber mo.firstDay =
        (dayNumber ed - dayNumber mo.firstDay) + 1 := by omega
    rw [h1]
    simp only [genMonthsGo]
    rw [if_pos hguard]
    have hnext := dayNumber_firstDay_next mo
    have hpos := daysInMonth_pos mo.year mo.month.val
    rw [genMonthsGo_congr ed (dayNumber ed - dayNumber mo.firstDay)
      (dayNumber ed + 1 - dayNumber (CalMonth.firstDay mo.next)) mo.next
      (by omega) (by omega)]
  · rw [if_neg hguard]
    have h0 : dayNumber ed + 1 - dayNumber mo.firstDay = 0 := by omega
    rw [h0]
    rfl

/-! Lemmas about the stable sort. -/

theorem mem_insertK {α : Type} (key : α → ℚ) (x : α) :
    ∀ (l : List α) (z : α), z ∈ insertK key x l ↔ z = x ∨ z ∈ l := by
  intro l
  induction l with
  | nil => intro z; simp [insertK]
  | cons y ys ih =>
    intro z
    simp only [insertK]
    split
    · simp [List.mem_cons]
    · simp only [List.mem_cons, ih]
      tauto

theorem mem_sortByKey {α : Type} (key : α → ℚ) :
    ∀ (l : List α) (z : α), z ∈ sortByKey key l ↔ z ∈ l := by
  intro l
  induction l with
  | nil => intro z; simp [sortByKey]
  | cons x xs ih =>
    intro z
    simp only [sortByKey, mem_insertK, ih, List.mem_cons]

theorem pairwise_insertK {α : Type} (key : α → ℚ) (x : α) :
    ∀ l : List α, l.Pairwise (fun a b => key a ≤ key b) →
      (insertK key x l).Pairwise (fun a b => key a ≤ key b) := by
  intro l
  induction l with
  | nil => intro _; simp [insertK]
  | cons y ys ih =>
    intro hp
    rw [List.pairwise_cons] at hp
    obtain ⟨hy, hys⟩ := hp
    simp only [insertK]
    split
    · rename_i hxy
      rw [List.pairwise_cons]
      refine ⟨?_, by rw [List.pairwise_cons]; exact ⟨hy, hys⟩⟩
      intro z hz
      rcases List.mem_cons.mp hz with hzy | hzys
      · exact hzy ▸ hxy
      · exact le_trans hxy (hy z hzys)
    · rename_i hxy
      rw [List.pairwise_cons]
      refine ⟨?_, ih hys⟩
      intro z hz
      rcases (mem_insertK key x ys z).mp hz with hzx | hzys
      · exact hzx ▸ le_of_not_le hxy
      · exact hy z hzys

theorem pairwise_sortByKey {α : Type} (key : α → ℚ) :
    ∀ l : List α, (sortByKey key l).Pairwise (fun a b => key a ≤ key b) := by
  intro l
  induction l with
  | nil => simp [sortByKey]
  | cons x xs ih => exact pairwise_insertK key x _ ih

theorem insertK_of_le {α : Type} (key : α → ℚ) (x : α) :
    ∀ m : List α, (∀ z ∈ m, key x ≤ key z) → insertK key x m = x :: m := by
  intro m hm
  cases m with
  | nil => rfl
  | cons z zs =>
    simp only [insertK]
    rw [if_pos (hm z (List.mem_cons_self z zs))]

theorem filter_insertK {α : Type} (key : α → ℚ) (p : α → Bool) (x : α) :
    ∀ l : List α, l.Pairwise (fun a b => key a ≤ key b) →
      (insertK key x l).filter p =
        if p x then insertK key x (l.filter p) else l.filter p := by
  intro l
  induction l with
  | nil =>
    intro _
    cases hpx : p x <;> simp [insertK, List.filter, hpx]
  | cons y ys ih =>
    intro hp
    rw [List.pairwise_cons] at hp
    obtain ⟨hy, hys⟩ := hp
    simp only [insertK]
    split
    · rename_i hxy
      rw [List.filter_cons]
      by_cases hpx : p x = true
      · rw [if_pos hpx, if_pos hpx]
        have hle : ∀ z ∈ (y :: ys).filter p, key x ≤ key z := by
          intro z hz
          rcases List.mem_cons.mp (List.mem_of_mem_filter hz) with hzy | hzys
          · exact hzy ▸ hxy
          · exact le_trans hxy (hy z hzys)
        rw [insertK_of_le key x _ hle]
      · rw [if_neg hpx, if_neg hpx]
    · rename_i hxy
      simp only [List.filter_cons]
      rw [ih hys]
      by_cases hpx : p x = true
      · by_cases hpy : p y = true
        · simp only [hpx, hpy, if_true]
          show y :: insertK key x (ys.filter p) = insertK key x (y :: ys.filter p)
          rw [insertK, if_neg hxy]
        · simp [hpx, hpy]
      · by_cases hpy : p y = true
        · simp [hpx, hpy]
        · simp [hpx, hpy]

theorem sortByKey_filter {α : Type} (key : α → ℚ) (p : α → Bool) :
    ∀ l : List α, sortByKey key (l.filter p) = (sortByKey key l).filter p := by
  intro l
  induction l with
  | nil => rfl
  | cons x xs ih =>
    rw [List.filter_cons]
    by_cases hpx : p x = true
    · rw [if_pos hpx]
      simp only [sortByKey]
      rw [ih, filter_insertK key p x _ (pairwise_sortByKey key xs), if_pos hpx]
    · rw [if_neg hpx]
      simp only [sortByKey]
      rw [ih, filter_insertK key p x _ (pairwise_sortByKey key xs), if_neg hpx]

/-! Claim C7. -/

/-- Claim C7: for every pair of dates with end after or equal to start,
`calculateDays` returns the inclusive day count, i.e. the day difference
plus one; in particular it returns 1 on equal dates, 31 for January 2024,
28 for February 2023 and 29 for February 2024. -/
theorem c7_inclusive_day_count :
    (∀ s e : Date, dayNumber s ≤ dayNumber e →
        calculateDays s e = (dayNumber e - dayNumber s) + 1) ∧
    (∀ d : Date, calculateDays d d = 1) ∧
    calculateDays ⟨2024, 0, 1⟩ ⟨2024, 0, 31⟩ = 31 ∧
    calculateDays ⟨2023, 1, 1⟩ ⟨2023, 1, 28⟩ = 28 ∧
    calculateDays ⟨2024, 1, 1⟩ ⟨2024, 1, 29⟩ = 29 := by
  refine ⟨?_, ?_, ?_, ?_, ?_⟩
  · intro s e h
    rw [calculateDays, countDays_eq]
    omega
  · intro d
    rw [calculateDays, countDays_eq]
    omega
  all_goals
    rw [calculateDays, countDays_eq]
    norm_num [dayNumber, daysBeforeMonth]
    omega

/-- Concrete instantiation of the universally quantified part of C7. -/
theorem c7_inclusive_day_count_witness :
    calculateDays ⟨1, 0, 1⟩ ⟨1, 0, 3⟩ =
      (dayNumber ⟨1, 0, 3⟩ - dayNumber ⟨1, 0, 1⟩) + 1 :=
  c7_inclusive_day_count.1 ⟨1, 0, 1⟩ ⟨1, 0, 3⟩ (by decide)

/-! Claim C4. -/

/-- Claim C4 counterexample: at `dayCount = 365` the compound and simple
interest of the code coincide exactly (both equal `P * R / 100`; here 5
for principal 100 at rate 5), so compound does not strictly exceed
simple there. -/
theorem c4_counterexample :
    calculateCompoundInterest qpow 100 (FieldVal.num 5) 365 =
      calculateSimpleInterest 100 (FieldVal.num 5) 365 ∧
    calculateCompoundInterest qpow 100 (FieldVal.num 5) 365 = Except.ok 5 := by
  with_unfolding_all decide

/-- Claim C4 amended: for every principal P above 0 and rate R above 0,
compound interest at 365 days is equal to (not strictly greater than)
simple interest at 365 days, given that the power oracle returns its base
at exponent one, as `Decimal.pow` does exactly. -/
theorem c4_amended (dpow : ℚ → ℚ → ℚ) (P R : ℚ) (hP : 0 < P) (hR : 0 < R)
    (hpow : dpow (1 + R / 100) 1 = 1 + R / 100) :
    calculateCompoundInterest dpow P (FieldVal.num R) 365 =
      calculateSimpleInterest P (FieldVal.num R) 365 := by
  simp only [calculateCompoundInterest, calculateSimpleInterest, decOf]
  have hcast : ((365 : Nat) : ℚ) / 365 = 1 := by norm_num
  rw [hcast, hpow]
  congr 1
  ring

/-- Concrete instantiation of the amended C4. -/
theorem c4_amended_witness :
    calculateCompoundInterest qpow 100 (FieldVal.num 5) 365 =
      calculateSimpleInterest 100 (FieldVal.num 5) 365 :=
  c4_amended qpow 100 5 (by norm_num) (by norm_num)
    (by with_unfolding_all decide)

/-! Claim C9. -/

/-- Claim C9: `calculateInterest` is deterministic — two calls whose six
arguments are pairwise equal (under the same `Decimal.pow`
implementation) return identical `CalculationResult` values in every
field, ledger entries and tier results included. -/
theorem c9_deterministic (dpow : ℚ → ℚ → ℚ) (P1 P2 : ℚ) (s1 s2 e1 e2 : Date)
    (t1 t2 : List InterestTier) (it1 it2 : InterestType) (ap1 ap2 : ApplyType)
    (hP : P1 = P2) (hs : s1 = s2) (he : e1 = e2) (ht : t1 = t2)
    (hit : it1 = it2) (hap : ap1 = ap2) :
    calculateInterest dpow P1 s1 e1 t1 it1 ap1 =
      calculateInterest dpow P2 s2 e2 t2 it2 ap2 := by
  subst hP; subst hs; subst he; subst ht; subst hit; subst hap; rfl

/-- Concrete instantiation of C9. -/
theorem c9_deterministic_witness :
    calculateInterest qpow 100 ⟨150, 0, 1⟩ ⟨150, 0, 31⟩ [tierA]
        InterestType.simple ApplyType.monthly =
      calculateInterest qpow 100 ⟨150, 0, 1⟩ ⟨150, 0, 31⟩ [tierA]
        InterestType.simple ApplyType.monthly :=
  c9_deterministic qpow 100 100 ⟨150, 0, 1⟩ ⟨150, 0, 1⟩ ⟨150, 0, 31⟩ ⟨150, 0, 31⟩
    [tierA] [tierA] InterestType.simple InterestType.simple
    ApplyType.monthly ApplyType.monthly rfl rfl rfl rfl rfl rfl

/-! Claim C3, counterexample part. -/

/-- Claim C3 counterexample: the engine's tier splitter does not skip a
tier with missing `min` — it throws (`new Decimal` of the empty string),
so the split of the remaining well-formed tiers does not succeed. -/
theorem c3_counterexample :
    splitAmountByTiers 100 [tierBad] = Except.error () := by
  with_unfolding_all decide

/-! Claim C8. -/

/-- Claim C8 counterexample: with a malformed tier present, the engine's
splitter throws even for principal 0 (the `Decimal` constructions run
before the break test), instead of returning the empty allocation
sequence claimed for every tier set. -/
theorem c8_counterexample :
    splitAmountByTiers 0 [tierBad] = Except.error () := by
  with_unfolding_all decide

/-- Claim C8 amended: for every tier set whose `min` fields parse and
whose `max` fields are absent or parse, the splitter called with a zero
or negative principal returns the empty allocation sequence. -/
theorem c8_amended (amount : ℚ) (tiers : List InterestTier)
    (hw : ∀ t ∈ tiers, minMaxParse t = true) (h0 : amount ≤ 0) :
    splitAmountByTiers amount tiers = Except.ok [] := by
  rw [splitAmountByTiers]
  cases hs : sortByKey minKey tiers with
  | nil => rfl
  | cons t ts =>
    have ht : t ∈ tiers := by
      rw [← mem_sortByKey minKey, hs]
      exact List.mem_cons_self t ts
    have hmm := hw t ht
    cases hmin : t.min <;> cases hmax : t.max <;>
      simp [minMaxParse, hmin, hmax] at hmm <;>
      simp [splitLoop, decOf, maxOf, hmin, hmax, h0]

/-- Concrete instantiation of the amended C8. -/
theorem c8_amended_witness :
    splitAmountByTiers 0 [tierA] = Except.ok [] :=
  c8_amended 0 [tierA] (by intro t ht; simp at ht; rw [ht]; rfl) (by norm_num)

/-! Claims C1 and C2, counterexample parts. -/

set_option maxRecDepth 40000 in
/-- Claim C1 counterexample: for the valid request from the 15th to the
20th of January of year 150 (principal 100, one open-ended tier; the year
is at least 100, so the constructor's `MakeFullYear` leaves it in place),
the engine's only segment starts at the 1st of the month, not at
`startDate`: its ledger dayCount is 20 while `totalDays` is 6, so the
breakdown day counts do not sum to `totalDays`. -/
theorem c1_counterexample :
    (calculateInterest qpow 100 ⟨150, 0, 15⟩ ⟨150, 0, 20⟩ [tierA]
        InterestType.simple ApplyType.monthly).map
      (fun r => ((r.breakdown.map (fun b => b.days)).sum, r.totalDays)) =
      Except.ok (20, 6) ∧ (20 : Nat) ≠ 6 := by
  with_unfolding_all decide

set_option maxRecDepth 40000 in
/-- Claim C2 counterexample: for the valid request over exactly January
of year 150 (endDate the 31st, the last day of the month; year at least
100, untouched by `MakeFullYear`) under `monthly` cadence, the single
ledger entry has `applied = false` — the final month is not capitalized,
contrary to the claim. -/
theorem c2_counterexample :
    (calculateInterest qpow 100 ⟨150, 0, 1⟩ ⟨150, 0, 31⟩ [tierA]
        InterestType.simple ApplyType.monthly).map
      (fun r => r.breakdown.map (fun b => b.applied)) =
      Except.ok [false] := by
  with_unfolding_all decide

/-! Engine bookkeeping lemmas. -/

/-- Deconstruction of a successful `stepMonth`: the new state is the old
one advanced by this month's interest, in the applied or the non-applied
shape according to the cadence decision. -/
theorem stepMonth_ok_cases {dpow : ℚ → ℚ → ℚ} {it : InterestType}
    {ap : ApplyType} {tiers : List InterestTier} {ed : Date}
    {s s1 : EState} {g : Segment}
    (h : stepMonth dpow it ap tiers ed s g = Except.ok s1) :
    ∃ mi : ℚ,
      (shouldApplyOf ap ed g = true ∧
        s1 = { balance := s.balance + (s.accrued + mi),
               cumulative := s.cumulative + (s.accrued + mi), accrued := 0,
               breakdown := s.breakdown ++
                 [{ month := g.month,
                    days := calculateDays g.monthStart g.monthEnd,
                    balance := s.balance + (s.accrued + mi), interest := mi,
                    cumulative := s.cumulative + (s.accrued + mi),
                    accrued := 0, applied := true }] }) ∨
      (shouldApplyOf ap ed g = false ∧
        s1 = { balance := s.balance, cumulative := s.cumulative,
               accrued := s.accrued + mi,
               breakdown := s.breakdown ++
                 [{ month := g.month,
                    days := calculateDays g.monthStart g.monthEnd,
                    balance := s.balance, interest := mi,
                    cumulative := s.cumulative + (s.accrued + mi),
                    accrued := s.accrued + mi, applied := false }] }) := by
  rw [stepMonth] at h
  split at h
  · cases h
  · split at h
    · cases h
    · rename_i mi hsum
      split at h
      · rename_i happ
        cases h
        exact ⟨mi, Or.inl ⟨happ, rfl⟩⟩
      · rename_i happ
        cases h
        exact ⟨mi, Or.inr ⟨Bool.not_eq_true _ ▸ happ, rfl⟩⟩

/-- A successful month loop preserves the difference between the running
balance and the cumulative applied interest. -/
theorem runMonths_balance {dpow : ℚ → ℚ → ℚ} {it : InterestType}
    {ap : ApplyType} {tiers : List InterestTier} {ed : Date} :
    ∀ (segs : List Segment) (s st : EState),
      runMonths dpow it ap tiers ed s segs = Except.ok st →
      st.balance - st.cumulative = s.balance - s.cumulative := by
  intro segs
  induction segs with
  | nil =>
    intro s st h
    cases h
    rfl
  | cons g gs ih =>
    intro s st h
    rw [runMonths] at h
    cases hstep : stepMonth dpow it ap tiers ed s g with
    | error e => rw [hstep] at h; cases h
    | ok s1 =>
      rw [hstep] at h
      have hrec := ih s1 st h
      rcases stepMonth_ok_cases hstep with ⟨mi, ⟨_, hs1⟩ | ⟨_, hs1⟩⟩
      · rw [hs1] at hrec
        dsimp only at hrec
        rw [hrec]
        ring
      · rw [hs1] at hrec
        dsimp only at hrec
        rw [hrec]

/-- A successful month loop appends one ledger row per segment, whose day
count is the segment's inclusive day count and whose `applied` flag is
exactly the cadence decision for that segment. -/
theorem runMonths_shape {dpow : ℚ → ℚ → ℚ} {it : InterestType}
    {ap : ApplyType} {tiers : List InterestTier} {ed : Date} :
    ∀ (segs : List Segment) (s st : EState),
      runMonths dpow it ap tiers ed s segs = Except.ok st →
      st.breakdown.map (fun b => b.days) =
        s.breakdown.map (fun b => b.days) ++
          segs.map (fun g => calculateDays g.monthStart g.monthEnd) ∧
      st.breakdown.map (fun b => b.applied) =
        s.breakdown.map (fun b => b.applied) ++
          segs.map (fun g => shouldApplyOf ap ed g) := by
  intro segs
  induction segs with
  | nil =>
    intro s st h
    cases h
    simp
  | cons g gs ih =>
    intro s st h
    rw [runMonths] at h
    cases hstep : stepMonth dpow it ap tiers ed s g with
    | error e => rw [hstep] at h; cases h
    | ok s1 =>
      rw [hstep] at h
      have hrec := ih s1 st h
      rcases stepMonth_ok_cases hstep with ⟨mi, ⟨happ, hs1⟩ | ⟨happ, hs1⟩⟩ <;>
        rw [hs1] at hrec <;>
        obtain ⟨hd, ha⟩ := hrec <;>
        constructor <;>
        simp only [List.map_cons, List.map_append, hd, ha, happ] <;>
        simp

/-- Deconstruction of a successful `calculateInterest` call into its month
loop run, final tier split and tier results. -/
theorem calculateInterest_ok {dpow : ℚ → ℚ → ℚ} {P : ℚ} {s e : Date}
    {tiers : List InterestTier} {it : InterestType} {ap : ApplyType}
    {r : CalculationResult}
    (h : calculateInterest dpow P s e tiers it ap = Except.ok r) :
    ∃ (st : EState) (tierSplit tierResults : List TierResult),
      runMonths dpow it ap tiers e
          { balance := P, cumulative := 0, accrued := 0, breakdown := [] }
          (genMonths e { year := makeFullYear s.year, month := s.month }) =
        Except.ok st ∧
      splitAmountByTiers P tiers = Except.ok tierSplit ∧
      mkTierResults dpow it (calculateDays s e) tierSplit =
        Except.ok tierResults ∧
      r = { totalInterest := st.cumulative + st.accrued,
            finalAmount := st.balance + st.accrued,
            accruedInterest := st.accrued,
            breakdown := st.breakdown,
            tierResults := tierResults,
            totalDays := calculateDays s e } := by
  rw [calculateInterest] at h
  split at h
  · cases h
  · rename_i st hrun
    split at h
    · cases h
    · rename_i tierSplit hsplit
      split at h
      · cases h
      · rename_i tierResults hmk
        cases h
        exact ⟨st, tierSplit, tierResults, hrun, hsplit, hmk, rfl⟩

/-! Claim C6. -/

/-- Claim C6: for every request whose run succeeds, the returned result
satisfies the aggregate identities of the code: with `st` the final loop
state, `totalInterest = st.cumulative + st.accrued` (applied plus
still-accrued), `finalAmount = st.balance + st.accrued`,
`accruedInterest = st.accrued`, the running balance differs from the
original principal exactly by the capitalized interest
(`st.balance = P + st.cumulative`), and therefore
`finalAmount = principal + totalInterest`. -/
theorem c6_aggregate_identities (dpow : ℚ → ℚ → ℚ) (P : ℚ) (s e : Date)
    (tiers : List InterestTier) (it : InterestType) (ap : ApplyType)
    (h : isOkE (calculateInterest dpow P s e tiers it ap) = true) :
    ∃ (r : CalculationResult) (st : EState),
      calculateInterest dpow P s e tiers it ap = Except.ok r ∧
      runMonths dpow it ap tiers e
          { balance := P, cumulative := 0, accrued := 0, breakdown := [] }
          (genMonths e { year := makeFullYear s.year, month := s.month }) =
        Except.ok st ∧
      r.totalInterest = st.cumulative + st.accrued ∧
      r.finalAmount = st.balance + st.accrued ∧
      r.accruedInterest = st.accrued ∧
      st.balance = P + st.cumulative ∧
      r.finalAmount = P + r.totalInterest := by
  cases hres : calculateInterest dpow P s e tiers it ap with
  | error e0 => rw [hres] at h; cases h
  | ok r =>
    obtain ⟨st, tierSplit, tierResults, hrun, _, _, hr⟩ :=
      calculateInterest_ok hres
    have hbal := runMonths_balance _ _ _ hrun
    dsimp only at hbal
    have hbal2 : st.balance = P + st.cumulative := by
      have : st.balance - st.cumulative = P - 0 := hbal
      linarith
    refine ⟨r, st, rfl, hrun, ?_, ?_, ?_, hbal2, ?_⟩ <;> rw [hr] <;> dsimp only
    rw [hbal2]
    ring

set_option maxRecDepth 40000 in
/-- Concrete instantiation of C6. -/
theorem c6_aggregate_identities_witness :
    ∃ (r : CalculationResult) (st : EState),
      calculateInterest qpow 100 ⟨150, 0, 1⟩ ⟨150, 0, 31⟩ [tierA]
          InterestType.simple ApplyType.monthly = Except.ok r ∧
      runMonths qpow InterestType.simple ApplyType.monthly [tierA] ⟨150, 0, 31⟩
          { balance := 100, cumulative := 0, accrued := 0, breakdown := [] }
          (genMonths ⟨150, 0, 31⟩ { year := makeFullYear 150, month := 0 }) =
        Except.ok st ∧
      r.totalInterest = st.cumulative + st.accrued ∧
      r.finalAmount = st.balance + st.accrued ∧
      r.accruedInterest = st.accrued ∧
      st.balance = 100 + st.cumulative ∧
      r.finalAmount = 100 + r.totalInterest :=
  c6_aggregate_identities qpow 100 ⟨150, 0, 1⟩ ⟨150, 0, 31⟩ [tierA]
    InterestType.simple ApplyType.monthly (by with_unfolding_all decide)

/-- Extending a ledger satisfying the prefix-sum invariant by one row
whose `cumulative` is the previous total plus its own interest. -/
theorem ledger_extend {l : List MonthlyBreakdown} {entry : MonthlyBreakdown}
    (hinv : ∀ i (hi : i < l.length),
      (l[i]).cumulative = ((l.take (i + 1)).map (fun b => b.interest)).sum ∧
      ((l[i]).applied = true → (l[i]).accrued = 0))
    (hcum : entry.cumulative =
      (l.map (fun b => b.interest)).sum + entry.interest)
    (hacc : entry.applied = true → entry.accrued = 0) :
    ∀ i (hi : i < (l ++ [entry]).length),
      ((l ++ [entry])[i]).cumulative =
        (((l ++ [entry]).take (i + 1)).map (fun b => b.interest)).sum ∧
      (((l ++ [entry])[i]).applied = true → ((l ++ [entry])[i]).accrued = 0) := by
  intro i hi
  rw [List.length_append, List.length_cons, List.length_nil] at hi
  rcases Nat.lt_or_ge i l.length with hlt | hge
  · have hget : (l ++ [entry])[i] = l[i] := List.getElem_append_left hlt
    have htake : (l ++ [entry]).take (i + 1) = l.take (i + 1) :=
      List.take_append_of_le_length (by omega)
    rw [hget, htake]
    exact hinv i hlt
  · have heq : i = l.length := by omega
    have hget : (l ++ [entry])[i] = entry :=
      List.getElem_concat_length l entry i heq (by omega)
    have htake : (l ++ [entry]).take (i + 1) = l ++ [entry] :=
      List.take_of_length_le (by simp [heq])
    rw [hget, htake, List.map_append, List.sum_append]
    refine ⟨?_, hacc⟩
    simpa using hcum

/-- A successful month loop maintains the ledger invariant: the state's
`cumulative + accrued` equals the sum of all recorded interests, each
row's `cumulative` is the prefix sum of interests up to it, and an
applied row has zero accrued interest. -/
theorem runMonths_ledger {dpow : ℚ → ℚ → ℚ} {it : InterestType}
    {ap : ApplyType} {tiers : List InterestTier} {ed : Date} :
    ∀ (segs : List Segment) (s st : EState),
      runMonths dpow it ap tiers ed s segs = Except.ok st →
      s.cumulative + s.accrued = (s.breakdown.map (fun b => b.interest)).sum →
      (∀ i (hi : i < s.breakdown.length),
        (s.breakdown[i]).cumulative =
          ((s.breakdown.take (i + 1)).map (fun b => b.interest)).sum ∧
        ((s.breakdown[i]).applied = true → (s.breakdown[i]).accrued = 0)) →
      st.cumulative + st.accrued =
        (st.breakdown.map (fun b => b.interest)).sum ∧
      (∀ i (hi : i < st.breakdown.length),
        (st.breakdown[i]).cumulative =
          ((st.breakdown.take (i + 1)).map (fun b => b.interest)).sum ∧
        ((st.breakdown[i]).applied = true → (st.breakdown[i]).accrued = 0)) := by
  intro segs
  induction segs with
  | nil =>
    intro s st h hsum hinv
    cases h
    exact ⟨hsum, hinv⟩
  | cons g gs ih =>
    intro s st h hsum hinv
    rw [runMonths] at h
    cases hstep : stepMonth dpow it ap tiers ed s g with
    | error e => rw [hstep] at h; cases h
    | ok s1 =>
      rw [hstep] at h
      rcases stepMonth_ok_cases hstep with ⟨mi, ⟨happ, hs1⟩ | ⟨happ, hs1⟩⟩
      · refine ih s1 st h ?_ ?_
        · rw [hs1]
          dsimp only
          simp only [List.map_append, List.sum_append]
          simp only [List.map_cons, List.map_nil, List.sum_cons, List.sum_nil]
          rw [← hsum]
          ring
        · rw [hs1]
          dsimp only
          refine ledger_extend hinv ?_ ?_
          · dsimp only
            rw [← hsum]
            ring
          · intro _
            rfl
      · refine ih s1 st h ?_ ?_
        · rw [hs1]
          dsimp only
          simp only [List.map_append, List.sum_append]
          simp only [List.map_cons, List.map_nil, List.sum_cons, List.sum_nil]
          rw [← hsum]
          ring
        · rw [hs1]
          dsimp only
          refine ledger_extend hinv ?_ ?_
          · dsimp only
            rw [← hsum]
            ring
          · intro hc
            cases hc

/-! Claim C10. -/

/-- Claim C10: ledger bookkeeping invariant — in the breakdown of every
successful `calculateInterest` run, each entry's `cumulative` equals the
sum of the `interest` fields of all entries up to and including it, and
every entry with `applied = true` has `accrued = 0`. -/
theorem c10_ledger_invariant (dpow : ℚ → ℚ → ℚ) (P : ℚ) (s e : Date)
    (tiers : List InterestTier) (it : InterestType) (ap : ApplyType)
    (h : isOkE (calculateInterest dpow P s e tiers it ap) = true) :
    ∃ r : CalculationResult,
      calculateInterest dpow P s e tiers it ap = Except.ok r ∧
      ∀ i (hi : i < r.breakdown.length),
        (r.breakdown[i]).cumulative =
          ((r.breakdown.take (i + 1)).map (fun b => b.interest)).sum ∧
        ((r.breakdown[i]).applied = true → (r.breakdown[i]).accrued = 0) := by
  cases hres : calculateInterest dpow P s e tiers it ap with
  | error e0 => rw [hres] at h; cases h
  | ok r =>
    obtain ⟨st, tierSplit, tierResults, hrun, _, _, hr⟩ :=
      calculateInterest_ok hres
    have hled := runMonths_ledger _ _ _ hrun (by simp) (by intro i hi; simp at hi)
    refine ⟨r, rfl, ?_⟩
    rw [hr]
    exact hled.2

set_option maxRecDepth 40000 in
/-- Concrete instantiation of C10. -/
theorem c10_ledger_invariant_witness :
    ∃ r : CalculationResult,
      calculateInterest qpow 100 ⟨150, 0, 1⟩ ⟨150, 0, 31⟩ [tierA]
          InterestType.simple ApplyType.monthly = Except.ok r ∧
      ∀ i (hi : i < r.breakdown.length),
        (r.breakdown[i]).cumulative =
          ((r.breakdown.take (i + 1)).map (fun b => b.interest)).sum ∧
        ((r.breakdown[i]).applied = true → (r.breakdown[i]).accrued = 0) :=
  c10_ledger_invariant qpow 100 ⟨150, 0, 1⟩ ⟨150, 0, 31⟩ [tierA]
    InterestType.simple ApplyType.monthly (by with_unfolding_all decide)

/-- Telescoping sum: when the month loop is entered, the day counts of
its segments sum to the inclusive day count from the 1st of the starting
month to the range end. -/
theorem genMonths_days_sum (ed : Date) :
    ∀ n mo, dayNumber mo.firstDay ≤ dayNumber ed →
      dayNumber ed + 1 - dayNumber mo.firstDay = n →
      ((genMonths ed mo).map
        (fun g => calculateDays g.monthStart g.monthEnd)).sum = n := by
  intro n
  induction n using Nat.strong_induction_on with
  | _ n ih =>
    intro mo hle hn
    rw [genMonths_unfold, if_pos hle]
    simp only [List.map_cons, List.sum_cons]
    have hlast := dayNumber_lastDay mo
    have hnext := dayNumber_firstDay_next mo
    have hpos := daysInMonth_pos mo.year mo.month.val
    by_cases h2 : dayNumber (CalMonth.firstDay mo.next) ≤ dayNumber ed
    · have hcond : ¬ (dayNumber ed < dayNumber mo.lastDay) := by omega
      rw [if_neg hcond]
      have hrec := ih (dayNumber ed + 1 - dayNumber (CalMonth.firstDay mo.next))
        (by omega) mo.next h2 rfl
      rw [hrec]
      rw [calculateDays, countDays_eq]
      omega
    · have hrest : genMonths ed mo.next = [] := by
        rw [genMonths_unfold, if_neg h2]
      rw [hrest]
      simp only [List.map_nil, List.sum_nil]
      by_cases hcl : dayNumber ed < dayNumber mo.lastDay
      · rw [if_pos hcl]
        rw [calculateDays, countDays_eq]
        omega
      · rw [if_neg hcl]
        rw [calculateDays, countDays_eq]
        omega

/-! Claim C1, amended part. -/

/-- Claim C1 amended: the engine partitions the range into calendar-month
segments whose first segment starts at the 1st of `startDate`'s month
(not at `startDate`); when `startDate` is the first day of its month and
its year is at least 100 — for start years 0 to 99 the constructor's
`MakeFullYear` relocates the seed to the 1900s and the breakdown is empty
— the ledger day counts do sum exactly to `totalDays`. -/
theorem c1_amended (dpow : ℚ → ℚ → ℚ) (P : ℚ) (s e : Date)
    (tiers : List InterestTier) (it : InterestType) (ap : ApplyType)
    (hP : 0 < P) (hday : s.day = 1) (hyr : 100 ≤ s.year)
    (hlt : dayNumber s < dayNumber e)
    (h : isOkE (calculateInterest dpow P s e tiers it ap) = true) :
    ∃ r : CalculationResult,
      calculateInterest dpow P s e tiers it ap = Except.ok r ∧
      (r.breakdown.map (fun b => b.days)).sum = r.totalDays := by
  cases hres : calculateInterest dpow P s e tiers it ap with
  | error e0 => rw [hres] at h; cases h
  | ok r =>
    obtain ⟨st, tierSplit, tierResults, hrun, _, _, hr⟩ :=
      calculateInterest_ok hres
    have hms : makeFullYear s.year = s.year := makeFullYear_of_ge hyr
    have hfd : dayNumber (CalMonth.firstDay { year := s.year, month := s.month })
        = dayNumber s := by
      simp [CalMonth.firstDay, dayNumber, hday]
    have hshape := (runMonths_shape _ _ _ hrun).1
    rw [hms] at hshape
    have hsum := genMonths_days_sum e _ { year := s.year, month := s.month }
      (by omega) rfl
    refine ⟨r, rfl, ?_⟩
    rw [hr]
    dsimp only
    rw [hshape]
    dsimp only [List.map_nil, List.nil_append]
    rw [hsum, calculateDays, countDays_eq]
    omega

set_option maxRecDepth 40000 in
/-- Concrete instantiation of the amended C1. -/
theorem c1_amended_witness :
    ∃ r : CalculationResult,
      calculateInterest qpow 100 ⟨150, 0, 1⟩ ⟨150, 1, 10⟩ [tierA]
          InterestType.simple ApplyType.monthly = Except.ok r ∧
      (r.breakdown.map (fun b => b.days)).sum = r.totalDays :=
  c1_amended qpow 100 ⟨150, 0, 1⟩ ⟨150, 1, 10⟩ [tierA]
    InterestType.simple ApplyType.monthly (by norm_num) rfl (by norm_num)
    (by decide) (by with_unfolding_all decide)

/-- Under `monthly` cadence the last generated segment never applies:
its clipped `monthEnd` lies in the final month, whose next month starts
after the range end. -/
theorem genMonths_monthly_last (ed : Date)
    (hed : ed.day ≤ daysInMonth ed.year ed.month.val) :
    ∀ n mo, 100 ≤ mo.year → dayNumber mo.firstDay ≤ dayNumber ed →
      dayNumber ed + 1 - dayNumber mo.firstDay = n →
      ∀ seg, (genMonths ed mo).getLast? = some seg →
        shouldApplyOf ApplyType.monthly ed seg = false := by
  intro n
  induction n using Nat.strong_induction_on with
  | _ n ih =>
    intro mo hy hle hn seg hseg
    rw [genMonths_unfold, if_pos hle] at hseg
    have hlast := dayNumber_lastDay mo
    have hnext := dayNumber_firstDay_next mo
    have hpos := daysInMonth_pos mo.year mo.month.val
    by_cases h2 : dayNumber (CalMonth.firstDay mo.next) ≤ dayNumber ed
    · rw [genMonths_unfold ed mo.next, if_pos h2] at hseg
      rw [List.getLast?_cons_cons] at hseg
      have hseg2 : (genMonths ed mo.next).getLast? = some seg := by
        rw [genMonths_unfold ed mo.next, if_pos h2]
        exact hseg
      exact ih (dayNumber ed + 1 - dayNumber (CalMonth.firstDay mo.next))
        (by omega) mo.next (le_trans hy (CalMonth.next_year_ge mo)) h2 rfl
        seg hseg2
    · have hrest : genMonths ed mo.next = [] := by
        rw [genMonths_unfold, if_neg h2]
      rw [hrest, List.getLast?_singleton] at hseg
      cases hseg
      by_cases hcl : dayNumber ed < dayNumber mo.lastDay
      · simp only [shouldApplyOf, if_pos hcl]
        have hyed : 100 ≤ ed.year := by
          by_contra hlt99
          have h1 := dayNumber_le_daysBeforeYear_succ (d := ed) hed
          have h2 := daysBeforeYear_mono (ed.year + 1) 100 (by omega)
          have h3 := daysBeforeYear_mono 100 mo.year hy
          have h4 : dayNumber mo.firstDay =
              daysBeforeYear mo.year + daysBeforeMonth mo.year mo.month.val + 1 :=
            rfl
          omega
        rw [makeFullYear_of_ge hyed]
        have hnext2 := dayNumber_firstDay_next
          { year := ed.year, month := ed.month : CalMonth }
        dsimp only at hnext2
        have hfd : dayNumber (CalMonth.firstDay
            { year := ed.year, month := ed.month }) + ed.day =
            dayNumber ed + 1 := by
          simp only [CalMonth.firstDay, dayNumber]
          omega
        simp only [decide_eq_false_iff_not]
        omega
      · simp only [shouldApplyOf, if_neg hcl]
        have hml : makeFullYear (CalMonth.lastDay mo).year = mo.year :=
          makeFullYear_of_ge hy
        rw [hml]
        show decide (dayNumber (CalMonth.firstDay (CalMonth.next mo)) ≤
          dayNumber ed) = false
        simp only [decide_eq_false_iff_not]
        exact h2

/-! Claim C2, amended part. -/

/-- Claim C2 amended: under `monthly` cadence, for every valid request
whose `endDate` falls on the last day of a calendar month and whose
`startDate` year is at least 100 — for start years 0 to 99 the
constructor's `MakeFullYear` relocates the loop seed to the 1900s and no
ledger entries are generated at all — the ledger entry for that final
month segment has `applied = false`: the engine never capitalizes the
final segment, because the next month's first day lies beyond `endDate`
(the opposite of the claimed behaviour). -/
theorem c2_amended (dpow : ℚ → ℚ → ℚ) (P : ℚ) (s e : Date)
    (tiers : List InterestTier) (it : InterestType)
    (hP : 0 < P) (hd1 : 1 ≤ s.day) (hyr : 100 ≤ s.year)
    (hlt : dayNumber s < dayNumber e)
    (hlast : e.day = daysInMonth e.year e.month.val)
    (h : isOkE (calculateInterest dpow P s e tiers it ApplyType.monthly) = true) :
    ∃ (r : CalculationResult) (entry : MonthlyBreakdown),
      calculateInterest dpow P s e tiers it ApplyType.monthly = Except.ok r ∧
      r.breakdown.getLast? = some entry ∧ entry.applied = false := by
  cases hres : calculateInterest dpow P s e tiers it ApplyType.monthly with
  | error e0 => rw [hres] at h; cases h
  | ok r =>
    obtain ⟨st, tierSplit, tierResults, hrun, _, _, hr⟩ :=
      calculateInterest_ok hres
    have hms : makeFullYear s.year = s.year := makeFullYear_of_ge hyr
    have hshape := (runMonths_shape _ _ _ hrun).2
    dsimp only [List.map_nil, List.nil_append] at hshape
    rw [hms] at hshape
    have hfd : dayNumber (CalMonth.firstDay { year := s.year, month := s.month })
        ≤ dayNumber s := by
      simp only [CalMonth.firstDay, dayNumber]
      omega
    have hguard : dayNumber (CalMonth.firstDay
        { year := s.year, month := s.month }) ≤ dayNumber e := by omega
    have hne : genMonths e { year := s.year, month := s.month } ≠ [] := by
      rw [genMonths_unfold, if_pos hguard]
      simp
    obtain ⟨gseg, hgseg⟩ := Option.isSome_iff_exists.mp
      (List.getLast?_isSome.mpr hne)
    have happf := genMonths_monthly_last e (by omega) _
      { year := s.year, month := s.month } hyr hguard rfl gseg hgseg
    have hmap : (st.breakdown.map (fun b => b.applied)).getLast? =
        ((genMonths e { year := s.year, month := s.month }).map
          (fun g => shouldApplyOf ApplyType.monthly e g)).getLast? := by
      rw [hshape]
    rw [List.getLast?_map, List.getLast?_map, hgseg] at hmap
    have hbne : st.breakdown ≠ [] := by
      intro hc
      rw [hc] at hmap
      simp [happf] at hmap
    obtain ⟨entry, hentry⟩ := Option.isSome_iff_exists.mp
      (List.getLast?_isSome.mpr hbne)
    refine ⟨r, entry, rfl, ?_, ?_⟩
    · rw [hr]
      exact hentry
    · rw [hentry] at hmap
      simp only [Option.map_some'] at hmap
      rw [happf] at hmap
      exact Option.some_inj.mp hmap

set_option maxRecDepth 40000 in
/-- Concrete instantiation of the amended C2. -/
theorem c2_amended_witness :
    ∃ (r : CalculationResult) (entry : MonthlyBreakdown),
      calculateInterest qpow 100 ⟨150, 0, 1⟩ ⟨150, 0, 31⟩ [tierA]
          InterestType.simple ApplyType.monthly = Except.ok r ∧
      r.breakdown.getLast? = some entry ∧ entry.applied = false :=
  c2_amended qpow 100 ⟨150, 0, 1⟩ ⟨150, 0, 31⟩ [tierA] InterestType.simple
    (by norm_num) (by norm_num) (by norm_num) (by decide) (by decide)
    (by with_unfolding_all decide)

/-! Claim C3, amended part. -/

/-- The DailyBreakdownTable splitter loop ignores tiers with falsy `min`
or `rate` exactly as if they had been filtered out beforehand. -/
theorem dailySplit_skip (a : ℚ) :
    ∀ (ts : List InterestTier) (p : ℚ),
      DailyBreakdown.splitLoop a ts p =
        DailyBreakdown.splitLoop a (ts.filter hasMinRate) p := by
  intro ts
  induction ts with
  | nil => intro p; rfl
  | cons t ts ih =>
    intro p
    rw [List.filter_cons]
    by_cases hk : hasMinRate t = true
    · rw [if_pos hk]
      have hskip : ¬ (t.min = FieldVal.missing ∨ t.rate = FieldVal.missing) := by
        simp only [hasMinRate, Bool.and_eq_true, decide_eq_true_eq] at hk
        tauto
      simp only [DailyBreakdown.splitLoop]
      rw [if_neg hskip, if_neg hskip]
      simp only [ih]
    · rw [if_neg hk]
      have hskip : t.min = FieldVal.missing ∨ t.rate = FieldVal.missing := by
        simp only [hasMinRate, Bool.and_eq_true, decide_eq_true_eq] at hk
        tauto
      simp only [DailyBreakdown.splitLoop]
      rw [if_pos hskip]
      exact ih p

/-- With no junk field anywhere, the DailyBreakdownTable splitter loop
cannot throw. -/
theorem dailySplit_ok (a : ℚ) :
    ∀ (ts : List InterestTier), (∀ t ∈ ts, noJunk t = true) →
      ∀ p, ∃ res, DailyBreakdown.splitLoop a ts p = Except.ok res := by
  intro ts
  induction ts with
  | nil => intro _ p; exact ⟨[], rfl⟩
  | cons t ts ih =>
    intro hnj p
    have hnjt := hnj t (List.mem_cons_self t ts)
    have hnjts : ∀ u ∈ ts, noJunk u = true := fun u hu =>
      hnj u (List.mem_cons.mpr (Or.inr hu))
    by_cases hskip : t.min = FieldVal.missing ∨ t.rate = FieldVal.missing
    · simp only [DailyBreakdown.splitLoop]
      rw [if_pos hskip]
      exact ih hnjts p
    · have hmin : ∃ q, t.min = FieldVal.num q := by
        rcases htm : t.min with _ | _ | q
        · exact absurd (Or.inl htm) hskip
        · rw [noJunk, htm] at hnjt
          simp at hnjt
        · exact ⟨q, rfl⟩
      obtain ⟨q, hq⟩ := hmin
      have hmx : ∃ om, maxOf t.max = Except.ok om := by
        rcases htx : t.max with _ | _ | m
        · exact ⟨none, rfl⟩
        · rw [noJunk, htx] at hnjt
          simp at hnjt
        · exact ⟨some m, rfl⟩
      obtain ⟨om, hom⟩ := hmx
      simp only [DailyBreakdown.splitLoop]
      rw [if_neg hskip, hq]
      simp only [decOf, hom]
      cases om with
      | none =>
        dsimp only
        split_ifs <;>
          first
          | exact ⟨[], rfl⟩
          | exact ih hnjts p
          | (obtain ⟨res, hres⟩ := ih hnjts _; rw [hres]; exact ⟨_, rfl⟩)
      | some m =>
        dsimp only
        split_ifs <;>
          first
          | exact ⟨[], rfl⟩
          | exact ih hnjts p
          | (obtain ⟨res, hres⟩ := ih hnjts _; rw [hres]; exact ⟨_, rfl⟩)

/-- Claim C3 amended: the DailyBreakdownTable's duplicated splitter (not
the engine's, which throws — see the counterexample) skips every tier
whose `min` or `rate` is missing: such tiers contribute no allocation,
the remaining tiers are processed exactly as if the malformed ones had
been removed, and, absent non-numeric fields, the split succeeds. -/
theorem c3_amended (a : ℚ) (tiers : List InterestTier)
    (hnj : ∀ t ∈ tiers, noJunk t = true) :
    DailyBreakdown.splitAmountByTiers a tiers =
      DailyBreakdown.splitAmountByTiers a (tiers.filter hasMinRate) ∧
    ∃ res, DailyBreakdown.splitAmountByTiers a tiers = Except.ok res := by
  constructor
  · rw [DailyBreakdown.splitAmountByTiers, DailyBreakdown.splitAmountByTiers,
      sortByKey_filter minKey hasMinRate tiers]
    exact dailySplit_skip a (sortByKey minKey tiers) 0
  · rw [DailyBreakdown.splitAmountByTiers]
    refine dailySplit_ok a _ ?_ 0
    intro t ht
    exact hnj t ((mem_sortByKey minKey tiers t).mp ht)

/-- Concrete instantiation of the amended C3: a malformed tier next to a
well-formed one is skipped and the split still succeeds. -/
theorem c3_amended_witness :
    DailyBreakdown.splitAmountByTiers 100 [tierA, tierBad] =
      DailyBreakdown.splitAmountByTiers 100 ([tierA, tierBad].filter hasMinRate) ∧
    ∃ res, DailyBreakdown.splitAmountByTiers 100 [tierA, tierBad] =
      Except.ok res :=
  c3_amended 100 [tierA, tierBad] (by with_unfolding_all decide)

/-! Claim C5. -/

/-- Walking a covering chain of tiers starting at `lo` with
`processed = min lo total` allocates exactly the remaining
`total - processed` and never throws. -/
theorem splitLoop_chain (total : ℚ) :
    ∀ (ts : List InterestTier) (lo processed : ℚ),
      chainCover lo ts = true → processed = min lo total →
      ∃ res, splitLoop total ts processed = Except.ok res ∧
        (res.map (fun r => r.amount)).sum = total - processed := by
  intro ts
  induction ts with
  | nil =>
    intro lo p hc _
    rw [chainCover] at hc
    cases hc
  | cons t ts ih =>
    intro lo p hc hp
    have hple : p ≤ total := by
      rw [hp]
      exact min_le_right lo total
    cases ts with
    | nil =>
      rw [chainCover] at hc
      simp only [Bool.and_eq_true, decide_eq_true_eq] at hc
      obtain ⟨hmin, hmax⟩ := hc
      simp only [splitLoop, hmin, hmax, decOf, maxOf]
      by_cases hbr : total ≤ p
      · rw [if_pos hbr]
        refine ⟨[], rfl, ?_⟩
        simp only [List.map_nil, List.sum_nil]
        linarith
      · rw [if_neg hbr]
        have hplt : p < total := not_le.mp hbr
        have hlo : p = lo := by
          rcases min_cases lo total with ⟨h1, _⟩ | ⟨h1, _⟩
          · rw [hp, h1]
          · rw [hp, h1] at hplt
            exact absurd hplt (lt_irrefl total)
        have hskip : ¬ total < lo := by
          rw [← hlo]
          exact not_lt.mpr hple
        rw [if_neg hskip]
        have hlole : lo ≤ total := hlo ▸ hple
        rw [if_pos hlole]
        have hamt : (0 : ℚ) < total - p := by linarith
        rw [if_pos hamt]
        refine ⟨[⟨FieldVal.num lo, FieldVal.missing, t.rate, total - p, 0⟩],
          ?_, ?_⟩
        · simp [splitLoop]
        · simp
    | cons t2 ts2 =>
      rw [chainCover] at hc
      rcases htm : t.max with _ | _ | hi <;> rw [htm] at hc
      · cases hc
      · cases hc
      · simp only [Bool.and_eq_true, decide_eq_true_eq] at hc
        obtain ⟨⟨hmin, hlh⟩, hcrest⟩ := hc
        rw [splitLoop]
        simp only [hmin, htm, decOf, maxOf]
        by_cases hbr : total ≤ p
        · rw [if_pos hbr]
          refine ⟨[], rfl, ?_⟩
          simp only [List.map_nil, List.sum_nil]
          linarith
        · rw [if_neg hbr]
          have hplt : p < total := not_le.mp hbr
          have hlo : p = lo := by
            rcases min_cases lo total with ⟨h1, _⟩ | ⟨h1, _⟩
            · rw [hp, h1]
            · rw [hp, h1] at hplt
              exact absurd hplt (lt_irrefl total)
          have hskip : ¬ total < lo := by
            rw [← hlo]
            exact not_lt.mpr hple
          rw [if_neg hskip]
          have hamt_eq : min (hi - p) (total - p) = min hi total - p := by
            rw [← min_sub_sub_right]
          by_cases hpos : (0 : ℚ) < min (hi - p) (total - p)
          · rw [if_pos hpos]
            obtain ⟨res, hres, hsum⟩ := ih hi (p + min (hi - p) (total - p))
              hcrest (by rw [hamt_eq]; ring)
            rw [hres]
            refine ⟨_, rfl, ?_⟩
            simp only [List.map_cons, List.sum_cons]
            rw [hsum]
            ring
          · rw [if_neg hpos]
            have hmeq : p = min hi total := by
              have h1 : min hi total - p ≤ 0 := by
                rw [← hamt_eq]
                exact not_lt.mp hpos
              have h2 : min lo total ≤ min hi total :=
                min_le_min hlh (le_refl total)
              rw [hp] at h1 ⊢
              linarith
            obtain ⟨res, hres, hsum⟩ := ih hi p hcrest hmeq
            exact ⟨res, hres, hsum⟩

/-- Claim C5: for every tier set whose sorted form is a non-empty chain
of disjoint, contiguous bands covering everything from 0 up (last tier
open-ended) and every principal at least 0, the splitter succeeds and its
allocation amounts sum exactly to the principal. -/
theorem c5_tier_sum (total : ℚ) (tiers : List InterestTier) (h0 : 0 ≤ total)
    (hc : chainCover 0 (sortByKey minKey tiers) = true) :
    ∃ res, splitAmountByTiers total tiers = Except.ok res ∧
      (res.map (fun r => r.amount)).sum = total := by
  rw [splitAmountByTiers]
  obtain ⟨res, hres, hsum⟩ := splitLoop_chain total (sortByKey minKey tiers)
    0 0 hc (min_eq_left h0).symm
  refine ⟨res, hres, ?_⟩
  rw [hsum]
  ring

/-- Concrete instantiation of C5: bands 0 to 50 and 50 up, principal 70,
allocations 50 and 20. -/
theorem c5_tier_sum_witness :
    ∃ res, splitAmountByTiers 70 [tierLow, tierHigh] = Except.ok res ∧
      (res.map (fun r => r.amount)).sum = 70 :=
  c5_tier_sum 70 [tierLow, tierHigh] (by norm_num)
    (by with_unfolding_all decide)
